import Mathlib

/-!
Verification of the unstdlib.py specification against the code.

Two components are embedded:

* `RUC` — the bounded `RecentlyUsedContainer` (LRU cache).  The module
  `unstdlib/standard/collections_.py` that defines it is not present in the
  source tree (only its test `test/test_standard.py` and the spec describe
  it), so the container is modelled from the spec: an ordered mapping whose
  iteration order is access order, where every touch re-inserts the key at
  the most-recently-used end and eviction removes the first entry.

* `memoized_call` — the memoization helper `_memoized_call` together with
  `assert_hashable` from `unstdlib/standard/functools_.py`, embedded from the
  source.  Python values are modelled by `PyVal`, which records whether a
  value is hashable; the cache is an insertion-ordered association list,
  mirroring a Python `dict`.
-/

/-! ## RecentlyUsedContainer (modelled from the spec) -/

/-- Modelled from the spec: a `RecentlyUsedContainer`
(`unstdlib/standard/collections_.py`, missing from the source tree) with its
fixed capacity `maxsize` and its resident entries in recency order: the
least-recently-used entry first, the most-recently-used entry last.  Keys are
`Nat`, values are `String` as in the test scenario. -/
structure RUC where
  maxsize : Nat
  entries : List (Nat × String)
deriving DecidableEq, Repr

/-- Remove every entry with the given key (the "delete" half of the
delete-then-insert touch described by the spec). -/
def removeKey (k : Nat) (es : List (Nat × String)) : List (Nat × String) :=
  es.filter (fun p => p.1 != k)

/-- Look a key up in an entry list, front to back. -/
def lookupKey (k : Nat) (es : List (Nat × String)) : Option String :=
  (es.find? (fun p => p.1 == k)).map Prod.snd

/-- Modelled from the spec: `contains(key)` is a pure membership test that
does not alter recency order. -/
def RUC.contains (c : RUC) (k : Nat) : Bool :=
  c.entries.any (fun p => p.1 == k)

/-- Modelled from the spec: `size()` is the number of resident entries. -/
def RUC.size (c : RUC) : Nat := c.entries.length

/-- Modelled from the spec: `set(key, value)` inserts or overwrites, marking
the key most-recently-used; when the container is full and the key is absent
the single least-recently-used entry (the first in iteration order) is
evicted before insertion. -/
def RUC.set (c : RUC) (k : Nat) (v : String) : RUC :=
  if c.contains k then
    { c with entries := removeKey k c.entries ++ [(k, v)] }
  else
    let es := if c.maxsize ≤ c.entries.length then c.entries.drop 1 else c.entries
    { c with entries := es ++ [(k, v)] }

/-- Modelled from the spec: `get(key)` returns the associated value of a
resident key and marks it most-recently-used; it fails (`KeyNotFound`,
here `none`) when the key is absent. -/
def RUC.get (c : RUC) (k : Nat) : Option (String × RUC) :=
  match lookupKey k c.entries with
  | none => none
  | some v => some (v, { c with entries := removeKey k c.entries ++ [(k, v)] })

/-- Modelled from the spec: `delete(key)` removes the key if present and
silently no-ops otherwise. -/
def RUC.delete (c : RUC) (k : Nat) : RUC :=
  { c with entries := removeKey k c.entries }

/-- Modelled from the spec: `clear()` removes all entries. -/
def RUC.clear (c : RUC) : RUC := { c with entries := [] }

/-- Modelled from the spec: a freshly constructed container with the given
capacity and no entries. -/
def RUC.empty (maxsize : Nat) : RUC := ⟨maxsize, []⟩

/-- Operations of the container interface, for quantifying over operation
sequences.  `query k` is a `contains(k)` call (a pure observer per the spec,
but kept in the trace so that its frame property is a theorem, not a
modelling choice). -/
inductive Op where
  | set (k : Nat) (v : String)
  | get (k : Nat)
  | delete (k : Nat)
  | clear
  | query (k : Nat)
deriving DecidableEq, Repr

/-- The state transition of one operation. -/
def applyOp (c : RUC) : Op → RUC
  | .set k v => c.set k v
  | .get k =>
      match c.get k with
      | none => c
      | some (_, c') => c'
  | .delete k => c.delete k
  | .clear => c.clear
  | .query _ => c

/-- Run a sequence of operations. -/
def RUC.runOps (c : RUC) (ops : List Op) : RUC := ops.foldl applyOp c

/-! ### Basic lemmas about entry lists -/

theorem removeKey_length_le (k : Nat) (es : List (Nat × String)) :
    (removeKey k es).length ≤ es.length :=
  List.length_filter_le _ es

theorem removeKey_cons_self (k : Nat) (v : String) (es : List (Nat × String)) :
    removeKey k ((k, v) :: es) = removeKey k es := by
  simp [removeKey]

theorem removeKey_cons_ne (k : Nat) (p : Nat × String) (es : List (Nat × String))
    (h : p.1 ≠ k) : removeKey k (p :: es) = p :: removeKey k es := by
  simp [removeKey, List.filter_cons, h]

theorem removeKey_length_lt (k : Nat) (es : List (Nat × String))
    (h : es.any (fun p => p.1 == k) = true) :
    (removeKey k es).length < es.length := by
  induction es with
  | nil => simp at h
  | cons p es ih =>
      by_cases hpk : p.1 = k
      · obtain ⟨p1, p2⟩ := p
        subst hpk
        rw [removeKey_cons_self]
        exact Nat.lt_succ_of_le (removeKey_length_le p1 es)
      · have hany : es.any (fun p => p.1 == k) = true := by
          simp [List.any_cons, hpk] at h
          simpa using h
        rw [removeKey_cons_ne k p es hpk]
        simpa using Nat.succ_lt_succ (ih hany)

theorem any_of_lookupKey_some (k : Nat) (v : String) (es : List (Nat × String))
    (hl : lookupKey k es = some v) : es.any (fun p => p.1 == k) = true := by
  induction es with
  | nil => simp [lookupKey] at hl
  | cons p es ih =>
      by_cases hpk : p.1 = k
      · simp [List.any_cons, hpk]
      · have hpk' : (p.1 == k) = false := beq_eq_false_iff_ne.mpr hpk
        have hl' : lookupKey k es = some v := by
          simpa [lookupKey, List.find?_cons, hpk'] using hl
        simp [List.any_cons, ih hl']

theorem contains_iff_mem_keys (c : RUC) (k : Nat) :
    c.contains k = true ↔ k ∈ c.entries.map Prod.fst := by
  simp only [RUC.contains, List.any_eq_true, List.mem_map, beq_iff_eq]

theorem applyOp_get_eq (c : RUC) (k : Nat) :
    applyOp c (Op.get k) =
      match lookupKey k c.entries with
      | none => c
      | some v => { c with entries := removeKey k c.entries ++ [(k, v)] } := by
  simp only [applyOp, RUC.get]
  cases lookupKey k c.entries with
  | none => rfl
  | some v => rfl

/-- One operation keeps the size bound, as long as the capacity is positive. -/
theorem applyOp_size_le (m : Nat) (hm : 0 < m) (c : RUC) (op : Op)
    (hcap : c.maxsize = m) (h : c.size ≤ m) : (applyOp c op).size ≤ m := by
  have hlen : c.entries.length ≤ m := h
  cases op with
  | set k v =>
      simp only [applyOp, RUC.set]
      by_cases hc : c.contains k = true
      · simp only [hc, if_true, RUC.size, List.length_append, List.length_cons,
          List.length_nil]
        have hlt := removeKey_length_lt k c.entries hc
        omega
      · simp only [hc, if_false, Bool.false_eq_true, RUC.size]
        by_cases hfull : c.maxsize ≤ c.entries.length
        · simp only [if_pos hfull, List.length_append, List.length_drop,
            List.length_cons, List.length_nil]
          rw [hcap] at hfull
          omega
        · simp only [if_neg hfull, List.length_append, List.length_cons,
            List.length_nil]
          rw [hcap] at hfull
          omega
  | get k =>
      rw [applyOp_get_eq]
      cases hl : lookupKey k c.entries with
      | none => simpa using h
      | some v =>
          have hany := any_of_lookupKey_some k v c.entries hl
          have hlt := removeKey_length_lt k c.entries hany
          simp only [RUC.size, List.length_append, List.length_cons,
            List.length_nil]
          omega
  | delete k =>
      simp only [applyOp, RUC.delete, RUC.size]
      exact le_trans (removeKey_length_le k c.entries) hlen
  | clear =>
      simp only [applyOp, RUC.clear, RUC.size, List.length_nil]
      exact Nat.zero_le m
  | query k => simpa using h

/-- Operations do not change the capacity field. -/
theorem applyOp_maxsize (c : RUC) (op : Op) : (applyOp c op).maxsize = c.maxsize := by
  cases op with
  | set k v => by_cases hc : c.contains k = true <;> simp [applyOp, RUC.set, hc]
  | get k =>
      rw [applyOp_get_eq]
      cases lookupKey k c.entries with
      | none => rfl
      | some v => rfl
  | delete k => rfl
  | clear => rfl
  | query k => rfl

/-- Running any operation sequence from a state within capacity stays within
capacity. -/
theorem runOps_size_le (m : Nat) (hm : 0 < m) (ops : List Op) :
    ∀ c : RUC, c.maxsize = m → c.size ≤ m → (c.runOps ops).size ≤ m := by
  induction ops with
  | nil => intro c _ h; simpa [RUC.runOps] using h
  | cons op ops ih =>
      intro c hcap h
      have h1 := applyOp_size_le m hm c op hcap h
      have h2 : (applyOp c op).maxsize = m := by
        rw [applyOp_maxsize]; exact hcap
      simpa [RUC.runOps] using ih (applyOp c op) h2 h1

/-- Claim C1: for every `RecentlyUsedContainer` constructed with positive
capacity and every sequence of `set`, `get`, `delete` and `clear` operations,
the number of resident entries after each mutating operation completes is at
most the capacity. -/
theorem C1_size_bounded (m : Nat) (ops : List Op) (hm : 0 < m) :
    ((RUC.empty m).runOps ops).size ≤ m :=
  runOps_size_le m hm ops (RUC.empty m) rfl (Nat.zero_le m)

/-- Witness for C1 at capacity 2 and a concrete operation sequence that
overfills the container. -/
theorem C1_size_bounded_witness :
    ((RUC.empty 2).runOps
      [Op.set 0 "a", Op.set 1 "b", Op.set 2 "c", Op.get 1, Op.set 3 "d",
       Op.delete 2, Op.set 4 "e", Op.clear, Op.set 5 "f"]).size ≤ 2 :=
  C1_size_bounded 2 _ (by decide)

/-! ### Membership and removal lemmas -/

theorem mem_removeKey (q : Nat × String) (k : Nat) (es : List (Nat × String)) :
    q ∈ removeKey k es ↔ q ∈ es ∧ q.1 ≠ k := by
  simp [removeKey, List.mem_filter]

theorem keys_set_not_resident (c : RUC) (k : Nat) (v : String)
    (h : c.contains k = false) :
    (c.set k v).entries =
      (if c.maxsize ≤ c.entries.length then c.entries.drop 1 else c.entries)
        ++ [(k, v)] := by
  simp only [RUC.set, h, Bool.false_eq_true, if_false]

theorem set_resident_entries (c : RUC) (k : Nat) (v : String)
    (h : c.contains k = true) :
    (c.set k v).entries = removeKey k c.entries ++ [(k, v)] := by
  simp only [RUC.set, h, if_true]

/-- Keys to set, as an operation list. -/
def setsOf (kvs : List (Nat × String)) : List Op :=
  kvs.map (fun p => Op.set p.1 p.2)

theorem runOps_append (c : RUC) (l₁ l₂ : List Op) :
    c.runOps (l₁ ++ l₂) = (c.runOps l₁).runOps l₂ := by
  simp [RUC.runOps, List.foldl_append]

/-- Filling a container that has room with fresh distinct keys appends them in
order, with no eviction. -/
theorem runOps_sets_fill (kvs : List (Nat × String)) :
    ∀ c : RUC, c.entries.length + kvs.length ≤ c.maxsize →
      (((c.entries ++ kvs).map Prod.fst).Nodup) →
      (c.runOps (setsOf kvs)).entries = c.entries ++ kvs ∧
        (c.runOps (setsOf kvs)).maxsize = c.maxsize := by
  induction kvs with
  | nil => intro c _ _; simp [RUC.runOps, setsOf]
  | cons p rest ih =>
      intro c hroom hnd
      obtain ⟨k, v⟩ := p
      have hknotin : k ∉ c.entries.map Prod.fst := by
        intro hk
        have : (c.entries.map Prod.fst ++ k :: rest.map Prod.fst).Nodup := by
          simpa using hnd
        rcases List.nodup_append.mp this with ⟨-, -, hdisj⟩
        exact hdisj hk (List.mem_cons_self k _)
      have hc : c.contains k = false := by
        cases hcb : c.contains k with
        | false => rfl
        | true => exact absurd ((contains_iff_mem_keys c k).mp hcb) hknotin
      have hnotfull : ¬ c.maxsize ≤ c.entries.length := by
        simp only [List.length_cons] at hroom
        omega
      have hstep : (c.set k v).entries = c.entries ++ [(k, v)] := by
        rw [keys_set_not_resident c k v hc, if_neg hnotfull]
      have hmax : (c.set k v).maxsize = c.maxsize := by
        simp [RUC.set, hc]
      have hroom' : (c.set k v).entries.length + rest.length ≤ (c.set k v).maxsize := by
        rw [hstep, hmax]
        simp only [List.length_append, List.length_cons, List.length_nil] at hroom ⊢
        omega
      have hnd' : (((c.set k v).entries ++ rest).map Prod.fst).Nodup := by
        rw [hstep]
        simpa [List.append_assoc] using hnd
      have hrun : c.runOps (setsOf ((k, v) :: rest))
          = (c.set k v).runOps (setsOf rest) := by
        simp [RUC.runOps, setsOf, applyOp]
      rw [hrun]
      obtain ⟨h1, h2⟩ := ih (c.set k v) hroom' hnd'
      refine ⟨?_, by rw [h2, hmax]⟩
      rw [h1, hstep, List.append_assoc]
      rfl

/-- Claim C2: inserting `capacity + 1` distinct keys in order into a fresh
container evicts exactly the first-inserted key, leaving the remaining keys
and the new key; and the concrete capacity-5 scenario of the test (insert
keys 0..4, read each with `get` in order, then set key 5) ends with size 5,
key 0 absent and key 5 present. -/
theorem C2_first_key_evicted (m k0 k : Nat) (v0 v : String)
    (rest : List (Nat × String))
    (hm : 0 < m) (hlen : rest.length + 1 = m)
    (hnd : (((k0, v0) :: (rest ++ [(k, v)])).map Prod.fst).Nodup) :
    (((RUC.empty m).runOps (setsOf ((k0, v0) :: rest ++ [(k, v)]))).entries
        = rest ++ [(k, v)])
    ∧ (((RUC.empty m).runOps (setsOf ((k0, v0) :: rest ++ [(k, v)]))).contains k0
        = false)
    ∧ (let c := (RUC.empty 5).runOps
        [Op.set 0 "0", Op.set 1 "1", Op.set 2 "2", Op.set 3 "3", Op.set 4 "4",
         Op.get 0, Op.get 1, Op.get 2, Op.get 3, Op.get 4, Op.set 5 "5"]
       c.size = 5 ∧ c.contains 0 = false ∧ c.contains 5 = true) := by
  have hnd' : ((((k0, v0) :: rest) ++ [(k, v)]).map Prod.fst).Nodup := by
    simpa using hnd
  have hndfill : (((RUC.empty m).entries ++ ((k0, v0) :: rest)).map Prod.fst).Nodup := by
    simp only [RUC.empty, List.nil_append]
    have := hnd'
    rw [List.map_append] at this
    exact (List.nodup_append.mp this).1
  have hroom : (RUC.empty m).entries.length + ((k0, v0) :: rest).length
      ≤ (RUC.empty m).maxsize := by
    simp [RUC.empty, List.length_cons]
    omega
  obtain ⟨hfill, hfillmax⟩ := runOps_sets_fill ((k0, v0) :: rest) (RUC.empty m) hroom hndfill
  have hsplit : setsOf ((k0, v0) :: rest ++ [(k, v)])
      = setsOf ((k0, v0) :: rest) ++ [Op.set k v] := by
    simp [setsOf]
  set cfull := (RUC.empty m).runOps (setsOf ((k0, v0) :: rest)) with hcfull
  have hentriesfull : cfull.entries = (k0, v0) :: rest := by
    simpa using hfill
  have hmaxfull : cfull.maxsize = m := by
    simpa [RUC.empty] using hfillmax
  have hknotin : k ∉ ((k0, v0) :: rest).map Prod.fst := by
    have : ((((k0, v0) :: rest)).map Prod.fst ++ [(k, v)].map Prod.fst).Nodup := by
      rw [← List.map_append]; exact hnd'
    rcases List.nodup_append.mp this with ⟨-, -, hdisj⟩
    intro hk
    exact hdisj hk (by simp)
  have hcont : cfull.contains k = false := by
    cases hcb : cfull.contains k with
    | false => rfl
    | true =>
        have := (contains_iff_mem_keys cfull k).mp hcb
        rw [hentriesfull] at this
        exact absurd this hknotin
  have hfull : cfull.maxsize ≤ cfull.entries.length := by
    rw [hmaxfull, hentriesfull]
    simp [List.length_cons]
    omega
  have hfinal : ((RUC.empty m).runOps (setsOf ((k0, v0) :: rest ++ [(k, v)]))).entries
      = rest ++ [(k, v)] := by
    rw [hsplit, runOps_append, ← hcfull]
    have : (cfull.runOps [Op.set k v]).entries = (cfull.set k v).entries := by
      simp [RUC.runOps, applyOp]
    rw [this, keys_set_not_resident cfull k v hcont, if_pos hfull, hentriesfull]
    simp
  refine ⟨hfinal, ?_, by decide⟩
  have hk0notin : k0 ∉ (rest ++ [(k, v)]).map Prod.fst := by
    have : (k0 :: (rest ++ [(k, v)]).map Prod.fst).Nodup := by
      simpa using hnd
    exact (List.nodup_cons.mp this).1
  cases hcb : ((RUC.empty m).runOps (setsOf ((k0, v0) :: rest ++ [(k, v)]))).contains k0 with
  | false => rfl
  | true =>
      have := (contains_iff_mem_keys _ k0).mp hcb
      rw [hfinal] at this
      exact absurd this hk0notin

/-- Witness for C2 at capacity 3 with keys 0,1,2 then 3. -/
theorem C2_first_key_evicted_witness :
    ((((RUC.empty 3).runOps (setsOf ((0, "a") :: [(1, "b"), (2, "c")] ++ [(3, "d")]))).entries
        = [(1, "b"), (2, "c")] ++ [(3, "d")])
    ∧ (((RUC.empty 3).runOps (setsOf ((0, "a") :: [(1, "b"), (2, "c")] ++ [(3, "d")]))).contains 0
        = false)
    ∧ (let c := (RUC.empty 5).runOps
        [Op.set 0 "0", Op.set 1 "1", Op.set 2 "2", Op.set 3 "3", Op.set 4 "4",
         Op.get 0, Op.get 1, Op.get 2, Op.get 3, Op.get 4, Op.set 5 "5"]
       c.size = 5 ∧ c.contains 0 = false ∧ c.contains 5 = true)) :=
  C2_first_key_evicted 3 0 3 "a" "d" [(1, "b"), (2, "c")]
    (by decide) (by decide) (by decide)

/-! ### Recency lemmas -/

theorem bool_eq_of_iff {a b : Bool} (h : a = true ↔ b = true) : a = b := by
  cases a <;> cases b <;> simp_all

theorem removeKey_eq_self (k : Nat) (es : List (Nat × String))
    (h : k ∉ es.map Prod.fst) : removeKey k es = es := by
  induction es with
  | nil => rfl
  | cons p es ih =>
      have hpk : p.1 ≠ k := by
        intro hk
        exact h (by simp [hk])
      rw [removeKey_cons_ne k p es hpk, ih (fun hm => h (by simp [hm]))]

theorem removeKey_cons_eq (k : Nat) (p : Nat × String) (es : List (Nat × String))
    (h : p.1 = k) : removeKey k (p :: es) = removeKey k es := by
  simp [removeKey, List.filter_cons, h]

theorem removeKey_length_nodup (k : Nat) (es : List (Nat × String))
    (hnd : (es.map Prod.fst).Nodup) (h : es.any (fun p => p.1 == k) = true) :
    (removeKey k es).length + 1 = es.length := by
  induction es with
  | nil => simp at h
  | cons p es ih =>
      rw [List.map_cons] at hnd
      have hnotin : p.1 ∉ es.map Prod.fst := (List.nodup_cons.mp hnd).1
      have hnd' : (es.map Prod.fst).Nodup := (List.nodup_cons.mp hnd).2
      by_cases hpk : p.1 = k
      · rw [removeKey_cons_eq k p es hpk,
          removeKey_eq_self k es (hpk ▸ hnotin)]
        simp
      · have hany : es.any (fun p => p.1 == k) = true := by
          simp [List.any_cons, hpk] at h
          simpa using h
        have hih := ih hnd' hany
        rw [removeKey_cons_ne k p es hpk]
        simp only [List.length_cons]
        omega

theorem mem_keys_removeKey (j k : Nat) (es : List (Nat × String)) :
    j ∈ (removeKey k es).map Prod.fst ↔ j ∈ es.map Prod.fst ∧ j ≠ k := by
  simp only [removeKey, List.mem_map, List.mem_filter, bne_iff_ne, ne_eq]
  constructor
  · rintro ⟨p, ⟨hp, hpk⟩, hj⟩
    exact ⟨⟨p, hp, hj⟩, hj ▸ hpk⟩
  · rintro ⟨⟨p, hp, hj⟩, hjk⟩
    exact ⟨p, ⟨hp, hj ▸ hjk⟩, hj⟩

theorem contains_of_mem (c : RUC) (k : Nat) (v : String)
    (h : (k, v) ∈ c.entries) : c.contains k = true :=
  (contains_iff_mem_keys c k).mpr (List.mem_map.mpr ⟨(k, v), h, rfl⟩)

/-- Claim C3: a `get` (or a `set`) on a resident key moves that key to the
most-recently-used end of the recency order without changing membership or
size; consequently, after `get(k0)` the key `k0` is no longer the eviction
candidate (the head of the recency order), and the next eviction — triggered
by inserting a fresh key — spares `k0`. -/
theorem C3_touch_refreshes_recency (c : RUC) (k knew : Nat) (v u w : String)
    (hnd : (c.entries.map Prod.fst).Nodup)
    (hres : lookupKey k c.entries = some v)
    (h2 : 2 ≤ c.size)
    (hfresh : c.contains knew = false) :
    ∃ c', c.get k = some (v, c') ∧
      c'.entries.getLast? = some (k, v) ∧
      (c.set k u).entries.getLast? = some (k, u) ∧
      c'.size = c.size ∧
      (∀ j, c'.contains j = c.contains j) ∧
      c'.entries.head?.map Prod.fst ≠ some k ∧
      (c'.set knew w).contains k = true := by
  have hany : c.entries.any (fun p => p.1 == k) = true :=
    any_of_lookupKey_some k v c.entries hres
  have hcont : c.contains k = true := hany
  have hkmem : k ∈ c.entries.map Prod.fst := (contains_iff_mem_keys c k).mp hcont
  have hrklen : (removeKey k c.entries).length + 1 = c.entries.length :=
    removeKey_length_nodup k c.entries hnd hany
  have hlen2 : 2 ≤ c.entries.length := h2
  set c' : RUC := { c with entries := removeKey k c.entries ++ [(k, v)] } with hc'
  have hmemiff : ∀ j, c'.contains j = c.contains j := by
    intro j
    apply bool_eq_of_iff
    rw [contains_iff_mem_keys, contains_iff_mem_keys]
    simp only [hc', List.map_append, List.mem_append, mem_keys_removeKey]
    constructor
    · rintro (⟨hj, -⟩ | hj)
      · exact hj
      · simp at hj
        exact hj ▸ hkmem
    · intro hj
      by_cases hjk : j = k
      · right; simp [hjk]
      · left; exact ⟨hj, hjk⟩
  refine ⟨c', ?_, ?_, ?_, ?_, hmemiff, ?_, ?_⟩
  · simp [RUC.get, hres, hc']
  · simp [hc']
  · rw [set_resident_entries c k u hcont]
    simp
  · simp only [hc', RUC.size, List.length_append, List.length_cons, List.length_nil]
    omega
  · have h1 : 1 ≤ (removeKey k c.entries).length := by omega
    cases hre : removeKey k c.entries with
    | nil => rw [hre] at h1; simp at h1
    | cons q t =>
        have hq : q ∈ removeKey k c.entries := by rw [hre]; exact List.mem_cons_self q t
        have hqk : q.1 ≠ k := ((mem_removeKey q k c.entries).mp hq).2
        simp only [hc', hre, List.cons_append, List.head?_cons, Option.map_some]
        intro hcontra
        exact hqk (by simpa using hcontra)
  · have hfresh' : c'.contains knew = false := by
      rw [hmemiff knew]; exact hfresh
    have hkv : (k, v) ∈ c'.entries := by
      simp [hc']
    have hset : (c'.set knew w).entries =
        (if c'.maxsize ≤ c'.entries.length then c'.entries.drop 1 else c'.entries)
          ++ [(knew, w)] :=
      keys_set_not_resident c' knew w hfresh'
    apply contains_of_mem _ k v
    rw [hset]
    by_cases hfull : c'.maxsize ≤ c'.entries.length
    · rw [if_pos hfull]
      have h1 : 1 ≤ (removeKey k c.entries).length := by omega
      have hdrop : c'.entries.drop 1 = (removeKey k c.entries).drop 1 ++ [(k, v)] := by
        show (removeKey k c.entries ++ [(k, v)]).drop 1 = _
        exact List.drop_append_of_le_length h1
      rw [hdrop]
      simp
    · rw [if_neg hfull]
      exact List.mem_append_left _ hkv

/-- Witness for C3: a full capacity-2 container holding keys 0 and 1, where
key 0 is the eviction candidate, then key 0 is read and key 2 inserted. -/
theorem C3_touch_refreshes_recency_witness :
    ∃ c', (RUC.mk 2 [(0, "a"), (1, "b")]).get 0 = some ("a", c') ∧
      c'.entries.getLast? = some (0, "a") ∧
      ((RUC.mk 2 [(0, "a"), (1, "b")]).set 0 "z").entries.getLast? = some (0, "z") ∧
      c'.size = (RUC.mk 2 [(0, "a"), (1, "b")]).size ∧
      (∀ j, c'.contains j = (RUC.mk 2 [(0, "a"), (1, "b")]).contains j) ∧
      c'.entries.head?.map Prod.fst ≠ some 0 ∧
      (c'.set 2 "c").contains 0 = true :=
  C3_touch_refreshes_recency (RUC.mk 2 [(0, "a"), (1, "b")]) 0 2 "a" "z" "c"
    (by decide) (by decide) (by decide) (by decide)

/-! ### Frame property of contains -/

/-- Recognises a `contains` call in an operation trace. -/
def Op.isQuery : Op → Bool
  | .query _ => true
  | _ => false

theorem runOps_cons (c : RUC) (op : Op) (ops : List Op) :
    c.runOps (op :: ops) = (applyOp c op).runOps ops := rfl

/-- Claim C4: `contains` returns a boolean and leaves the container state,
including the recency order, unchanged; dropping any number of `contains`
calls from an operation sequence leaves the final state — hence every
subsequent eviction choice — exactly the same. -/
theorem C4_contains_is_pure_observer (c : RUC) (ops : List Op) (k : Nat) :
    applyOp c (Op.query k) = c ∧
    (c.contains k = true ∨ c.contains k = false) ∧
    c.runOps ops = c.runOps (ops.filter (fun op => ! op.isQuery)) := by
  refine ⟨rfl, by cases c.contains k <;> simp, ?_⟩
  induction ops generalizing c with
  | nil => rfl
  | cons op ops ih =>
      cases op with
      | query j =>
          have hfilter : (Op.query j :: ops).filter (fun op => ! op.isQuery)
              = ops.filter (fun op => ! op.isQuery) := by
            simp [List.filter_cons, Op.isQuery]
          rw [hfilter, runOps_cons]
          exact ih c
      | set j v =>
          have hfilter : (Op.set j v :: ops).filter (fun op => ! op.isQuery)
              = Op.set j v :: ops.filter (fun op => ! op.isQuery) := by
            simp [List.filter_cons, Op.isQuery]
          rw [hfilter, runOps_cons, runOps_cons]
          exact ih _
      | get j =>
          have hfilter : (Op.get j :: ops).filter (fun op => ! op.isQuery)
              = Op.get j :: ops.filter (fun op => ! op.isQuery) := by
            simp [List.filter_cons, Op.isQuery]
          rw [hfilter, runOps_cons, runOps_cons]
          exact ih _
      | delete j =>
          have hfilter : (Op.delete j :: ops).filter (fun op => ! op.isQuery)
              = Op.delete j :: ops.filter (fun op => ! op.isQuery) := by
            simp [List.filter_cons, Op.isQuery]
          rw [hfilter, runOps_cons, runOps_cons]
          exact ih _
      | clear =>
          have hfilter : (Op.clear :: ops).filter (fun op => ! op.isQuery)
              = Op.clear :: ops.filter (fun op => ! op.isQuery) := by
            simp [List.filter_cons, Op.isQuery]
          rw [hfilter, runOps_cons, runOps_cons]
          exact ih _

/-! ### Error behaviour of get -/

theorem lookupKey_none_iff_not_any (k : Nat) (es : List (Nat × String)) :
    lookupKey k es = none ↔ es.any (fun p => p.1 == k) = false := by
  induction es with
  | nil => simp [lookupKey]
  | cons p t ih =>
      by_cases hpk : p.1 = k
      · have hpk' : (p.1 == k) = true := beq_iff_eq.mpr hpk
        simp [lookupKey, List.find?_cons, List.any_cons, hpk']
      · have hpk' : (p.1 == k) = false := beq_eq_false_iff_ne.mpr hpk
        have hstep : lookupKey k (p :: t) = lookupKey k t := by
          simp [lookupKey, List.find?_cons, hpk']
        rw [hstep, ih]
        simp [List.any_cons, hpk']

/-- Claim C7: `get(key)` returns the associated value exactly when the key is
resident and fails (`KeyNotFound`, modelled by `none`) exactly when the key
is absent: it never fails on a resident key and never returns a value for an
absent key. -/
theorem C7_get_succeeds_iff_resident (c : RUC) (k : Nat) :
    (c.get k = none ↔ c.contains k = false) ∧
    (∀ v c', c.get k = some (v, c') →
      c.contains k = true ∧ lookupKey k c.entries = some v) ∧
    (c.contains k = true → ∃ v c', c.get k = some (v, c')) := by
  cases hl : lookupKey k c.entries with
  | none =>
      have hget : c.get k = none := by simp [RUC.get, hl]
      have hanyf : c.entries.any (fun p => p.1 == k) = false :=
        (lookupKey_none_iff_not_any k c.entries).mp hl
      have hcontf : c.contains k = false := hanyf
      refine ⟨by simp [hget, hcontf], ?_, ?_⟩
      · intro v c' hsome
        rw [hget] at hsome
        exact absurd hsome (by simp)
      · intro hcont
        rw [hcontf] at hcont
        exact absurd hcont (by simp)
  | some v =>
      have hget : c.get k =
          some (v, { c with entries := removeKey k c.entries ++ [(k, v)] }) := by
        simp [RUC.get, hl]
      have hcont : c.contains k = true := any_of_lookupKey_some k v c.entries hl
      refine ⟨by simp [hget, hcont], ?_, ?_⟩
      · intro v' c' hsome
        rw [hget] at hsome
        have h1 := Option.some.inj hsome
        have hv : v = v' := congrArg Prod.fst h1
        exact ⟨hcont, congrArg some hv⟩
      · intro _
        exact ⟨v, _, hget⟩

/-! ### Idempotence of set -/

theorem RUC.eq_of_fields (c₁ c₂ : RUC) (h1 : c₁.maxsize = c₂.maxsize)
    (h2 : c₁.entries = c₂.entries) : c₁ = c₂ := by
  cases c₁; cases c₂; simp_all

theorem set_maxsize (c : RUC) (k : Nat) (v : String) :
    (c.set k v).maxsize = c.maxsize := by
  by_cases h : c.contains k = true
  · simp [RUC.set, h]
  · simp [RUC.set, h]

theorem removeKey_append (k : Nat) (es₁ es₂ : List (Nat × String)) :
    removeKey k (es₁ ++ es₂) = removeKey k es₁ ++ removeKey k es₂ := by
  simp [removeKey, List.filter_append]

theorem removeKey_idem (k : Nat) (es : List (Nat × String)) :
    removeKey k (removeKey k es) = removeKey k es := by
  simp [removeKey, List.filter_filter]

theorem lookupKey_append_last (k : Nat) (v : String) (xs : List (Nat × String))
    (h : ∀ q ∈ xs, q.1 ≠ k) : lookupKey k (xs ++ [(k, v)]) = some v := by
  induction xs with
  | nil => simp [lookupKey]
  | cons p t ih =>
      have hpk' : (p.1 == k) = false :=
        beq_eq_false_iff_ne.mpr (h p (List.mem_cons_self p t))
      have hstep : lookupKey k ((p :: t) ++ [(k, v)]) = lookupKey k (t ++ [(k, v)]) := by
        simp [lookupKey, List.find?_cons, hpk']
      rw [hstep]
      exact ih (fun q hq => h q (List.mem_cons_of_mem p hq))

theorem contains_set_resident (c : RUC) (k : Nat) (v : String)
    (hres : c.contains k = true) :
    ∀ j, (c.set k v).contains j = c.contains j := by
  intro j
  have hkmem : k ∈ c.entries.map Prod.fst := (contains_iff_mem_keys c k).mp hres
  apply bool_eq_of_iff
  rw [contains_iff_mem_keys, contains_iff_mem_keys]
  rw [set_resident_entries c k v hres]
  simp only [List.map_append, List.mem_append, mem_keys_removeKey]
  constructor
  · rintro (⟨hj, -⟩ | hj)
    · exact hj
    · simp at hj
      exact hj ▸ hkmem
  · intro hj
    by_cases hjk : j = k
    · right; simp [hjk]
    · left; exact ⟨hj, hjk⟩

/-- Claim C8: setting a resident key is idempotent — repeating
`set(key, value)` changes nothing, the container size is unchanged, no
eviction happens (membership of every key is preserved), and `get(key)`
still returns the value. -/
theorem C8_set_resident_idempotent (c : RUC) (k : Nat) (v : String)
    (hnd : (c.entries.map Prod.fst).Nodup)
    (hres : c.contains k = true) :
    (c.set k v).set k v = c.set k v ∧
    (c.set k v).size = c.size ∧
    (∀ j, (c.set k v).contains j = c.contains j) ∧
    lookupKey k ((c.set k v).set k v).entries = some v := by
  have he1 : (c.set k v).entries = removeKey k c.entries ++ [(k, v)] :=
    set_resident_entries c k v hres
  have hcont1 : (c.set k v).contains k = true :=
    contains_of_mem _ k v (by rw [he1]; simp)
  have he2 : ((c.set k v).set k v).entries
      = removeKey k (c.set k v).entries ++ [(k, v)] :=
    set_resident_entries _ k v hcont1
  have hrk : removeKey k (c.set k v).entries = removeKey k c.entries := by
    rw [he1, removeKey_append, removeKey_idem]
    have hlast : removeKey k [(k, v)] = [] := by simp [removeKey]
    rw [hlast, List.append_nil]
  refine ⟨?_, ?_, contains_set_resident c k v hres, ?_⟩
  · apply RUC.eq_of_fields
    · simp [set_maxsize]
    · rw [he2, hrk, he1]
  · rw [RUC.size, RUC.size, he1]
    simp only [List.length_append, List.length_cons, List.length_nil]
    have := removeKey_length_nodup k c.entries hnd hres
    omega
  · rw [he2, hrk]
    apply lookupKey_append_last
    intro q hq
    exact ((mem_removeKey q k c.entries).mp hq).2

/-- Witness for C8 on a concrete two-entry container with key 0 resident. -/
theorem C8_set_resident_idempotent_witness :
    ((RUC.mk 2 [(0, "a"), (1, "b")]).set 0 "z").set 0 "z"
        = (RUC.mk 2 [(0, "a"), (1, "b")]).set 0 "z" ∧
    ((RUC.mk 2 [(0, "a"), (1, "b")]).set 0 "z").size
        = (RUC.mk 2 [(0, "a"), (1, "b")]).size ∧
    (∀ j, ((RUC.mk 2 [(0, "a"), (1, "b")]).set 0 "z").contains j
        = (RUC.mk 2 [(0, "a"), (1, "b")]).contains j) ∧
    lookupKey 0 (((RUC.mk 2 [(0, "a"), (1, "b")]).set 0 "z").set 0 "z").entries
        = some "z" :=
  C8_set_resident_idempotent (RUC.mk 2 [(0, "a"), (1, "b")]) 0 "z"
    (by decide) (by decide)

/-! ## Memoization (`_memoized_call` and `assert_hashable`,
embedded from `unstdlib/standard/functools_.py`) -/

/-- A Python value as seen by the memoizer: either a hashable object or an
unhashable one (e.g. a list), identified by a tag. -/
inductive PyVal where
  | obj (n : Nat)
  | unhashable (n : Nat)
deriving DecidableEq, Repr

/-- Whether `hash(v)` succeeds. -/
def PyVal.isHashable : PyVal → Bool
  | .obj _ => true
  | .unhashable _ => false

/-- Lexicographic comparison of character lists by code point, as Python
compares `str` values. -/
def charsLe : List Char → List Char → Bool
  | [], _ => true
  | _ :: _, [] => false
  | a :: as, b :: bs =>
      if a.toNat < b.toNat then true
      else if b.toNat < a.toNat then false
      else charsLe as bs

/-- Python's `<=` on strings: lexicographic by code point. -/
def strLe (a b : String) : Bool := charsLe a.data b.data

/-- The relation `sorted` orders keyword items by: compare by keyword name
(dict keys are distinct, so Python's tuple comparison never reaches the
values). -/
def kwLE (p q : String × PyVal) : Prop := strLe p.1 q.1 = true

instance : DecidableRel kwLE :=
  fun p q => inferInstanceAs (Decidable (strLe p.1 q.1 = true))

theorem charsLe_total : ∀ as bs : List Char,
    charsLe as bs = true ∨ charsLe bs as = true := by
  intro as
  induction as with
  | nil => intro bs; left; rfl
  | cons a as ih =>
      intro bs
      cases bs with
      | nil => right; rfl
      | cons b bs =>
          simp only [charsLe]
          by_cases hab : a.toNat < b.toNat
          · left; rw [if_pos hab]
          · by_cases hba : b.toNat < a.toNat
            · right; rw [if_pos hba]
            · rcases ih bs with h | h
              · left; rw [if_neg hab, if_neg hba]; exact h
              · right; rw [if_neg hba, if_neg hab]; exact h

theorem charsLe_trans : ∀ as bs cs : List Char,
    charsLe as bs = true → charsLe bs cs = true → charsLe as cs = true := by
  intro as
  induction as with
  | nil => intro bs cs _ _; rfl
  | cons a as ih =>
      intro bs cs h1 h2
      cases bs with
      | nil => simp [charsLe] at h1
      | cons b bs =>
          cases cs with
          | nil => simp [charsLe] at h2
          | cons c cs =>
              simp only [charsLe] at h1 h2 ⊢
              by_cases hab : a.toNat < b.toNat
              · by_cases hbc : b.toNat < c.toNat
                · have hac : a.toNat < c.toNat := Nat.lt_trans hab hbc
                  rw [if_pos hac]
                · rw [if_neg hbc] at h2
                  by_cases hcb : c.toNat < b.toNat
                  · rw [if_pos hcb] at h2
                    exact absurd h2 (by simp)
                  · have hac : a.toNat < c.toNat := by omega
                    rw [if_pos hac]
              · rw [if_neg hab] at h1
                by_cases hba : b.toNat < a.toNat
                · rw [if_pos hba] at h1
                  exact absurd h1 (by simp)
                · rw [if_neg hba] at h1
                  by_cases hbc : b.toNat < c.toNat
                  · have hac : a.toNat < c.toNat := by omega
                    rw [if_pos hac]
                  · rw [if_neg hbc] at h2
                    by_cases hcb : c.toNat < b.toNat
                    · rw [if_pos hcb] at h2
                      exact absurd h2 (by simp)
                    · rw [if_neg hcb] at h2
                      have hac : ¬ a.toNat < c.toNat := by omega
                      have hca : ¬ c.toNat < a.toNat := by omega
                      rw [if_neg hac, if_neg hca]
                      exact ih bs cs h1 h2

theorem charsLe_antisymm : ∀ as bs : List Char,
    charsLe as bs = true → charsLe bs as = true → as = bs := by
  intro as
  induction as with
  | nil =>
      intro bs h1 h2
      cases bs with
      | nil => rfl
      | cons b bs => simp [charsLe] at h2
  | cons a as ih =>
      intro bs h1 h2
      cases bs with
      | nil => simp [charsLe] at h1
      | cons b bs =>
          simp only [charsLe] at h1 h2
          by_cases hab : a.toNat < b.toNat
          · have hba : ¬ b.toNat < a.toNat := by omega
            rw [if_neg hba, if_pos hab] at h2
            exact absurd h2 (by simp)
          · by_cases hba : b.toNat < a.toNat
            · rw [if_neg hab, if_pos hba] at h1
              exact absurd h1 (by simp)
            · rw [if_neg hab, if_neg hba] at h1
              rw [if_neg hba, if_neg hab] at h2
              have hnat : a.toNat = b.toNat := by omega
              have hchar : a = b := Char.ext (UInt32.toNat.inj hnat)
              rw [hchar, ih bs h1 h2]

theorem strLe_antisymm (a b : String) (h1 : strLe a b = true)
    (h2 : strLe b a = true) : a = b := by
  have hd := charsLe_antisymm a.data b.data h1 h2
  cases a with
  | mk da =>
      cases b with
      | mk db => exact congrArg String.mk hd

instance : IsTotal (String × PyVal) kwLE :=
  ⟨fun p q => charsLe_total p.1.data q.1.data⟩

instance : IsTrans (String × PyVal) kwLE :=
  ⟨fun p q r h1 h2 => charsLe_trans p.1.data q.1.data r.1.data h1 h2⟩

/-- Embeds `tuple(sorted(kw.items()))`. -/
def sortKW (kw : List (String × PyVal)) : List (String × PyVal) :=
  List.insertionSort kwLE kw

/-- The composite cache key `(args, tuple(sorted(kw.items())))` of
`_memoized_call`. -/
def mkKey (args : List PyVal) (kw : List (String × PyVal)) :
    List PyVal × List (String × PyVal) :=
  (args, sortKW kw)

/-- The type of memoization cache keys. -/
abbrev MemoKey := List PyVal × List (String × PyVal)

/-- The memoizer's state: the cache (a Python `dict`, modelled as an
insertion-ordered association list with unique keys) plus a ghost counter of
how many times the underlying function has been invoked. -/
structure MemoState where
  cache : List (MemoKey × PyVal)
  calls : Nat
deriving DecidableEq, Repr

/-- Dict lookup, front to back. -/
def cacheGet (c : List (MemoKey × PyVal)) (k : MemoKey) : Option PyVal :=
  (c.find? (fun e => e.1 == k)).map Prod.snd

/-- The exceptions `_memoized_call` can surface, mirroring the source's
`TypeError('Argument in position %d is not hashable: %r')`,
`TypeError('Keyword argument %r is not hashable: %r')`, the re-raised
original error, and an (unreachable) missing-key error. -/
inductive MemoError where
  | argNotHashable (pos : Nat) (v : PyVal)
  | kwargNotHashable (name : String) (v : PyVal)
  | typeErrorOther
  | keyError
deriving DecidableEq, Repr

/-- The first unhashable positional argument, with its position, as found by
the `enumerate` loop of `assert_hashable`. -/
def firstUnhashableArg : List PyVal → Option (Nat × PyVal)
  | [] => none
  | v :: rest =>
      if v.isHashable then (firstUnhashableArg rest).map (fun p => (p.1 + 1, p.2))
      else some (0, v)

/-- The first keyword item with an unhashable value, as found by the
`iterate_items` loop of `assert_hashable` (dict iteration order, i.e. the
given list order). -/
def firstUnhashableKw : List (String × PyVal) → Option (String × PyVal)
  | [] => none
  | p :: rest => if p.2.isHashable then firstUnhashableKw rest else some p

/-- Embeds `assert_hashable`: checks every positional argument in order, then
every keyword value in order, and raises a descriptive error on the first
failure. -/
def assertHashable (args : List PyVal) (kw : List (String × PyVal)) :
    Except MemoError Unit :=
  match firstUnhashableArg args with
  | some (i, v) => .error (.argNotHashable i v)
  | none =>
      match firstUnhashableKw kw with
      | some (name, v) => .error (.kwargNotHashable name v)
      | none => .ok ()

/-- Whether hashing the composite key succeeds: every positional argument and
every keyword value is hashable. -/
def keyHashable (args : List PyVal) (kw : List (String × PyVal)) : Bool :=
  args.all PyVal.isHashable && kw.all (fun p => p.2.isHashable)

/-- Embeds `_memoized_call(fn, cache, *args, **kw)`.  The key is
`(args, tuple(sorted(kw.items())))`; `key in cache` raises `TypeError` when
the key is unhashable, in which case `assert_hashable` re-raises a
descriptive error (or, unreachably, the original is re-raised); on a miss the
result of `fn` is stored under the key and `cache[key]` is returned. -/
def memoized_call (fn : List PyVal → List (String × PyVal) → PyVal)
    (s : MemoState) (args : List PyVal) (kw : List (String × PyVal)) :
    Except MemoError PyVal × MemoState :=
  let key := mkKey args kw
  if keyHashable args kw then
    match cacheGet s.cache key with
    | some v => (.ok v, s)
    | none =>
        let v := fn args kw
        let cache' := s.cache ++ [(key, v)]
        ((match cacheGet cache' key with
          | some w => .ok w
          | none => .error .keyError),
         { cache := cache', calls := s.calls + 1 })
  else
    match assertHashable args kw with
    | .error e => (.error e, s)
    | .ok _ => (.error .typeErrorOther, s)

/-- One call to the memoized function. -/
structure Call where
  args : List PyVal
  kw : List (String × PyVal)
deriving DecidableEq, Repr

/-- The composite key a call produces. -/
def callKey (c : Call) : MemoKey := mkKey c.args c.kw

/-- Run a sequence of calls against the memoizer, threading the state. -/
def runCalls (fn : List PyVal → List (String × PyVal) → PyVal)
    (s : MemoState) : List Call → MemoState
  | [] => s
  | c :: cs => runCalls fn (memoized_call fn s c.args c.kw).2 cs

/-! ### Cache lemmas -/

theorem cacheGet_none_iff (c : List (MemoKey × PyVal)) (k : MemoKey) :
    cacheGet c k = none ↔ k ∉ c.map Prod.fst := by
  induction c with
  | nil => simp [cacheGet]
  | cons e t ih =>
      by_cases hek : e.1 = k
      · have hek' : (e.1 == k) = true := beq_iff_eq.mpr hek
        simp [cacheGet, List.find?_cons, hek', hek]
      · have hek' : (e.1 == k) = false := beq_eq_false_iff_ne.mpr hek
        have hstep : cacheGet (e :: t) k = cacheGet t k := by
          simp [cacheGet, List.find?_cons, hek']
        rw [hstep, ih]
        constructor
        · intro h hmem
          rcases List.mem_cons.mp hmem with h1 | h1
          · exact hek h1.symm
          · exact h h1
        · intro h hmem
          exact h (List.mem_cons_of_mem _ hmem)

theorem cacheGet_append_of_none (c : List (MemoKey × PyVal)) (k : MemoKey)
    (v : PyVal) (h : cacheGet c k = none) :
    cacheGet (c ++ [(k, v)]) k = some v := by
  induction c with
  | nil => simp [cacheGet, List.find?_cons]
  | cons e t ih =>
      have hek' : (e.1 == k) = false := by
        cases hb : (e.1 == k) with
        | false => rfl
        | true =>
            exfalso
            have hg : cacheGet (e :: t) k = some e.2 := by
              simp [cacheGet, List.find?_cons, hb]
            rw [hg] at h
            exact absurd h (by simp)
      have hstep1 : cacheGet (e :: t) k = cacheGet t k := by
        simp [cacheGet, List.find?_cons, hek']
      have hstep2 : cacheGet ((e :: t) ++ [(k, v)]) k = cacheGet (t ++ [(k, v)]) k := by
        simp [cacheGet, List.find?_cons, hek']
      rw [hstep2]
      rw [hstep1] at h
      exact ih h

theorem memoized_call_hit (fn : List PyVal → List (String × PyVal) → PyVal)
    (s : MemoState) (args : List PyVal) (kw : List (String × PyVal)) (v : PyVal)
    (hh : keyHashable args kw = true)
    (hsome : cacheGet s.cache (mkKey args kw) = some v) :
    memoized_call fn s args kw = (.ok v, s) := by
  simp [memoized_call, hh, hsome]

theorem memoized_call_miss (fn : List PyVal → List (String × PyVal) → PyVal)
    (s : MemoState) (args : List PyVal) (kw : List (String × PyVal))
    (hh : keyHashable args kw = true)
    (hnone : cacheGet s.cache (mkKey args kw) = none) :
    memoized_call fn s args kw =
      (.ok (fn args kw),
       ⟨s.cache ++ [(mkKey args kw, fn args kw)], s.calls + 1⟩) := by
  simp only [memoized_call, hh, if_true, hnone]
  rw [cacheGet_append_of_none s.cache (mkKey args kw) (fn args kw) hnone]

/-- Claim C5: each call derives the composite key from the positional
arguments and the sorted keyword items, tests membership, stores the
function's result on a miss, and returns the cached value; calling again with
the same arguments while the key stays cached does not invoke the underlying
function a second time. -/
theorem C5_memoizer_contract (fn : List PyVal → List (String × PyVal) → PyVal)
    (s : MemoState) (args : List PyVal) (kw : List (String × PyVal))
    (hh : keyHashable args kw = true) :
    (cacheGet s.cache (mkKey args kw) = none →
      memoized_call fn s args kw =
        (.ok (fn args kw),
         ⟨s.cache ++ [(mkKey args kw, fn args kw)], s.calls + 1⟩)) ∧
    (∀ v, cacheGet s.cache (mkKey args kw) = some v →
      memoized_call fn s args kw = (.ok v, s)) ∧
    ((memoized_call fn (memoized_call fn s args kw).2 args kw).2.calls
        = (memoized_call fn s args kw).2.calls) := by
  refine ⟨memoized_call_miss fn s args kw hh,
    fun v => memoized_call_hit fn s args kw v hh, ?_⟩
  cases hc : cacheGet s.cache (mkKey args kw) with
  | none =>
      rw [memoized_call_miss fn s args kw hh hc]
      have h2 : cacheGet (s.cache ++ [(mkKey args kw, fn args kw)]) (mkKey args kw)
          = some (fn args kw) := cacheGet_append_of_none _ _ _ hc
      rw [memoized_call_hit fn
        ⟨s.cache ++ [(mkKey args kw, fn args kw)], s.calls + 1⟩
        args kw (fn args kw) hh h2]
  | some v =>
      rw [memoized_call_hit fn s args kw v hh hc,
        memoized_call_hit fn s args kw v hh hc]

/-- Witness for C5 with one positional argument and one keyword argument. -/
theorem C5_memoizer_contract_witness :
    (cacheGet (MemoState.mk [] 0).cache (mkKey [PyVal.obj 3] [("b", PyVal.obj 4)]) = none →
      memoized_call (fun _ _ => PyVal.obj 7) (MemoState.mk [] 0)
          [PyVal.obj 3] [("b", PyVal.obj 4)] =
        (.ok ((fun _ _ => PyVal.obj 7) [PyVal.obj 3] [("b", PyVal.obj 4)]),
         ⟨(MemoState.mk [] 0).cache ++
            [(mkKey [PyVal.obj 3] [("b", PyVal.obj 4)],
              (fun _ _ => PyVal.obj 7) [PyVal.obj 3] [("b", PyVal.obj 4)])],
          (MemoState.mk [] 0).calls + 1⟩)) ∧
    (∀ v, cacheGet (MemoState.mk [] 0).cache (mkKey [PyVal.obj 3] [("b", PyVal.obj 4)]) = some v →
      memoized_call (fun _ _ => PyVal.obj 7) (MemoState.mk [] 0)
          [PyVal.obj 3] [("b", PyVal.obj 4)] = (.ok v, MemoState.mk [] 0)) ∧
    ((memoized_call (fun _ _ => PyVal.obj 7)
        (memoized_call (fun _ _ => PyVal.obj 7) (MemoState.mk [] 0)
          [PyVal.obj 3] [("b", PyVal.obj 4)]).2
        [PyVal.obj 3] [("b", PyVal.obj 4)]).2.calls
      = (memoized_call (fun _ _ => PyVal.obj 7) (MemoState.mk [] 0)
          [PyVal.obj 3] [("b", PyVal.obj 4)]).2.calls) :=
  C5_memoizer_contract (fun _ _ => PyVal.obj 7) (MemoState.mk [] 0)
    [PyVal.obj 3] [("b", PyVal.obj 4)] (by decide)

/-! ### Unbounded growth of the default cache -/

/-- Append a key to an accumulator unless it is already there. -/
def insertIfAbsent (ks : List MemoKey) (k : MemoKey) : List MemoKey :=
  if k ∈ ks then ks else ks ++ [k]

/-- The distinct keys of a list, first occurrences in order. -/
def distinctKeys (l : List MemoKey) : List MemoKey :=
  l.foldl insertIfAbsent []

theorem mem_foldl_insertIfAbsent_mono (l : List MemoKey) :
    ∀ (a : List MemoKey) (x : MemoKey), x ∈ a → x ∈ l.foldl insertIfAbsent a := by
  induction l with
  | nil => intro a x hx; simpa using hx
  | cons k l ih =>
      intro a x hx
      rw [List.foldl_cons]
      apply ih
      unfold insertIfAbsent
      by_cases hk : k ∈ a
      · rw [if_pos hk]; exact hx
      · rw [if_neg hk]; exact List.mem_append_left _ hx

theorem mem_foldl_insertIfAbsent_self (l : List MemoKey) :
    ∀ (a : List MemoKey) (x : MemoKey), x ∈ l → x ∈ l.foldl insertIfAbsent a := by
  induction l with
  | nil => intro a x hx; simp at hx
  | cons k l ih =>
      intro a x hx
      rcases List.mem_cons.mp hx with h1 | h1
      · subst h1
        rw [List.foldl_cons]
        apply mem_foldl_insertIfAbsent_mono
        unfold insertIfAbsent
        by_cases hk : x ∈ a
        · rw [if_pos hk]; exact hk
        · rw [if_neg hk]; exact List.mem_append_right _ (by simp)
      · exact ih _ x h1

/-- Running calls against the memoizer extends the cache keys exactly by the
distinct fresh keys, and counts one underlying invocation per fresh key. -/
theorem runCalls_cache_spec (fn : List PyVal → List (String × PyVal) → PyVal)
    (calls : List Call) :
    ∀ s : MemoState, (∀ c ∈ calls, keyHashable c.args c.kw = true) →
      (runCalls fn s calls).cache.map Prod.fst
        = calls.foldl (fun a c => insertIfAbsent a (callKey c)) (s.cache.map Prod.fst) ∧
      (runCalls fn s calls).calls + (s.cache.map Prod.fst).length
        = s.calls
          + (calls.foldl (fun a c => insertIfAbsent a (callKey c))
              (s.cache.map Prod.fst)).length := by
  induction calls with
  | nil => intro s _; exact ⟨rfl, by simp [runCalls]⟩
  | cons c cs ih =>
      intro s hall
      have hc := hall c (List.mem_cons_self c cs)
      have hcs := fun d hd => hall d (List.mem_cons_of_mem c hd)
      have hrunstep : runCalls fn s (c :: cs)
          = runCalls fn (memoized_call fn s c.args c.kw).2 cs := rfl
      cases hcg : cacheGet s.cache (callKey c) with
      | some v =>
          have hkmem : callKey c ∈ s.cache.map Prod.fst := by
            by_contra hnot
            have hnone := (cacheGet_none_iff s.cache (callKey c)).mpr hnot
            rw [hnone] at hcg
            exact absurd hcg (by simp)
          have hstate : (memoized_call fn s c.args c.kw).2 = s := by
            rw [memoized_call_hit fn s c.args c.kw v hc hcg]
          have hins : insertIfAbsent (s.cache.map Prod.fst) (callKey c)
              = s.cache.map Prod.fst := by
            simp [insertIfAbsent, hkmem]
          obtain ⟨ih1, ih2⟩ := ih s hcs
          rw [hrunstep, hstate]
          constructor
          · rw [List.foldl_cons]
            simpa [hins] using ih1
          · rw [List.foldl_cons]
            simpa [hins] using ih2
      | none =>
          have hknot : callKey c ∉ s.cache.map Prod.fst :=
            (cacheGet_none_iff s.cache (callKey c)).mp hcg
          have hstate : (memoized_call fn s c.args c.kw).2
              = ⟨s.cache ++ [(mkKey c.args c.kw, fn c.args c.kw)], s.calls + 1⟩ := by
            rw [memoized_call_miss fn s c.args c.kw hc hcg]
          set s' : MemoState := ⟨s.cache ++ [(mkKey c.args c.kw, fn c.args c.kw)], s.calls + 1⟩
            with hs'
          have hkeys' : s'.cache.map Prod.fst
              = s.cache.map Prod.fst ++ [callKey c] := by
            simp [hs', callKey]
          have hins : insertIfAbsent (s.cache.map Prod.fst) (callKey c)
              = s.cache.map Prod.fst ++ [callKey c] := by
            simp [insertIfAbsent, hknot]
          obtain ⟨ih1, ih2⟩ := ih s' hcs
          rw [hrunstep, hstate]
          constructor
          · rw [List.foldl_cons]
            rw [ih1, hkeys', hins]
          · rw [List.foldl_cons, hins]
            rw [hkeys'] at ih2
            simp only [List.length_append, List.length_cons, List.length_nil,
              hs'] at ih2 ⊢
            omega

/-- Claim C6: with the default (plain dict) cache, starting empty, no key is
ever removed: after any sequence of (hashable) calls every key ever derived
is still resident, the cache's keys are exactly the distinct derived keys in
first-use order, and the underlying function ran once per distinct key. -/
theorem C6_default_cache_never_evicts (fn : List PyVal → List (String × PyVal) → PyVal)
    (calls : List Call)
    (hall : ∀ c ∈ calls, keyHashable c.args c.kw = true) :
    ((runCalls fn ⟨[], 0⟩ calls).cache.map Prod.fst
        = distinctKeys (calls.map callKey)) ∧
    ((runCalls fn ⟨[], 0⟩ calls).cache.length
        = (distinctKeys (calls.map callKey)).length) ∧
    (∀ c ∈ calls, cacheGet (runCalls fn ⟨[], 0⟩ calls).cache (callKey c) ≠ none) ∧
    ((runCalls fn ⟨[], 0⟩ calls).calls = (distinctKeys (calls.map callKey)).length) := by
  have hfold : distinctKeys (calls.map callKey)
      = calls.foldl (fun a c => insertIfAbsent a (callKey c)) [] := by
    rw [distinctKeys, List.foldl_map]
  obtain ⟨h1, h2⟩ := runCalls_cache_spec fn calls ⟨[], 0⟩ hall
  simp only [List.map_nil, List.length_nil, Nat.add_zero, Nat.zero_add] at h1 h2
  have hkeys : (runCalls fn ⟨[], 0⟩ calls).cache.map Prod.fst
      = distinctKeys (calls.map callKey) := by rw [h1, hfold]
  refine ⟨hkeys, ?_, ?_, by rw [h2, hfold]⟩
  · rw [← hkeys, List.length_map]
  · intro c hc
    have hmem : callKey c ∈ (runCalls fn ⟨[], 0⟩ calls).cache.map Prod.fst := by
      rw [hkeys, distinctKeys]
      exact mem_foldl_insertIfAbsent_self (calls.map callKey) [] (callKey c)
        (List.mem_map.mpr ⟨c, hc, rfl⟩)
    intro hnone
    exact absurd ((cacheGet_none_iff _ _).mp hnone) (by simpa using hmem)

/-- Witness for C6: three calls, two of them with the same key. -/
theorem C6_default_cache_never_evicts_witness :
    ((runCalls (fun _ _ => PyVal.obj 0) ⟨[], 0⟩
        [⟨[PyVal.obj 1], []⟩, ⟨[PyVal.obj 2], []⟩, ⟨[PyVal.obj 1], []⟩]).cache.map Prod.fst
      = distinctKeys ([⟨[PyVal.obj 1], []⟩, ⟨[PyVal.obj 2], []⟩,
          ⟨[PyVal.obj 1], []⟩].map callKey)) ∧
    ((runCalls (fun _ _ => PyVal.obj 0) ⟨[], 0⟩
        [⟨[PyVal.obj 1], []⟩, ⟨[PyVal.obj 2], []⟩, ⟨[PyVal.obj 1], []⟩]).cache.length
      = (distinctKeys ([⟨[PyVal.obj 1], []⟩, ⟨[PyVal.obj 2], []⟩,
          ⟨[PyVal.obj 1], []⟩].map callKey)).length) ∧
    (∀ c ∈ [Call.mk [PyVal.obj 1] [], Call.mk [PyVal.obj 2] [], Call.mk [PyVal.obj 1] []],
      cacheGet (runCalls (fun _ _ => PyVal.obj 0) ⟨[], 0⟩
        [⟨[PyVal.obj 1], []⟩, ⟨[PyVal.obj 2], []⟩, ⟨[PyVal.obj 1], []⟩]).cache (callKey c)
        ≠ none) ∧
    ((runCalls (fun _ _ => PyVal.obj 0) ⟨[], 0⟩
        [⟨[PyVal.obj 1], []⟩, ⟨[PyVal.obj 2], []⟩, ⟨[PyVal.obj 1], []⟩]).calls
      = (distinctKeys ([⟨[PyVal.obj 1], []⟩, ⟨[PyVal.obj 2], []⟩,
          ⟨[PyVal.obj 1], []⟩].map callKey)).length) :=
  C6_default_cache_never_evicts (fun _ _ => PyVal.obj 0)
    [⟨[PyVal.obj 1], []⟩, ⟨[PyVal.obj 2], []⟩, ⟨[PyVal.obj 1], []⟩]
    (by decide)

/-! ### Error behaviour on unhashable arguments -/

theorem firstUnhashableArg_none_iff (args : List PyVal) :
    firstUnhashableArg args = none ↔ args.all PyVal.isHashable = true := by
  induction args with
  | nil => simp [firstUnhashableArg]
  | cons v rest ih =>
      cases hv : v.isHashable with
      | true => simp [firstUnhashableArg, hv, Option.map_eq_none, ih]
      | false => simp [firstUnhashableArg, hv]

theorem firstUnhashableKw_none_iff (kw : List (String × PyVal)) :
    firstUnhashableKw kw = none ↔ kw.all (fun p => p.2.isHashable) = true := by
  induction kw with
  | nil => simp [firstUnhashableKw]
  | cons p rest ih =>
      cases hv : p.2.isHashable with
      | true => simp [firstUnhashableKw, hv, ih]
      | false => simp [firstUnhashableKw, hv]

/-- Claim C9: when some positional argument or keyword value is unhashable,
the memoizer surfaces a `TypeError` naming either the first unhashable
positional argument's index or (when all positionals are hashable) the first
offending keyword's name; the underlying function is not invoked and the
cache (the entire state, call counter included) is left unchanged. -/
theorem C9_unhashable_raises_descriptive_error
    (fn : List PyVal → List (String × PyVal) → PyVal) (s : MemoState)
    (args : List PyVal) (kw : List (String × PyVal))
    (hh : keyHashable args kw = false) :
    (memoized_call fn s args kw).2 = s ∧
    ((∃ i v, firstUnhashableArg args = some (i, v) ∧
        (memoized_call fn s args kw).1 = .error (.argNotHashable i v)) ∨
     (firstUnhashableArg args = none ∧
      ∃ name v, firstUnhashableKw kw = some (name, v) ∧
        (memoized_call fn s args kw).1 = .error (.kwargNotHashable name v))) := by
  cases hfa : firstUnhashableArg args with
  | some p =>
      obtain ⟨i, v⟩ := p
      have hass : assertHashable args kw = .error (.argNotHashable i v) := by
        simp [assertHashable, hfa]
      have hcall : memoized_call fn s args kw = (.error (.argNotHashable i v), s) := by
        simp [memoized_call, hh, hass]
      rw [hcall]
      exact ⟨rfl, .inl ⟨i, v, rfl, rfl⟩⟩
  | none =>
      have hallargs : args.all PyVal.isHashable = true :=
        (firstUnhashableArg_none_iff args).mp hfa
      have hkwfalse : kw.all (fun p => p.2.isHashable) = false := by
        cases hkb : kw.all (fun p => p.2.isHashable) with
        | false => rfl
        | true =>
            exfalso
            rw [keyHashable, hallargs, hkb] at hh
            exact absurd hh (by simp)
      cases hfk : firstUnhashableKw kw with
      | none =>
          exfalso
          rw [(firstUnhashableKw_none_iff kw).mp hfk] at hkwfalse
          exact absurd hkwfalse (by simp)
      | some p =>
          obtain ⟨name, v⟩ := p
          have hass : assertHashable args kw = .error (.kwargNotHashable name v) := by
            simp [assertHashable, hfa, hfk]
          have hcall : memoized_call fn s args kw
              = (.error (.kwargNotHashable name v), s) := by
            simp [memoized_call, hh, hass]
          rw [hcall]
          exact ⟨rfl, .inr ⟨rfl, name, v, rfl, rfl⟩⟩

/-- Witness for C9: the second positional argument is unhashable. -/
theorem C9_unhashable_raises_descriptive_error_witness :
    (memoized_call (fun _ _ => PyVal.obj 0) (MemoState.mk [] 0)
        [PyVal.obj 1, PyVal.unhashable 7] []).2 = MemoState.mk [] 0 ∧
    ((∃ i v, firstUnhashableArg [PyVal.obj 1, PyVal.unhashable 7] = some (i, v) ∧
        (memoized_call (fun _ _ => PyVal.obj 0) (MemoState.mk [] 0)
          [PyVal.obj 1, PyVal.unhashable 7] []).1 = .error (.argNotHashable i v)) ∨
     (firstUnhashableArg [PyVal.obj 1, PyVal.unhashable 7] = none ∧
      ∃ name v, firstUnhashableKw ([] : List (String × PyVal)) = some (name, v) ∧
        (memoized_call (fun _ _ => PyVal.obj 0) (MemoState.mk [] 0)
          [PyVal.obj 1, PyVal.unhashable 7] []).1 = .error (.kwargNotHashable name v))) :=
  C9_unhashable_raises_descriptive_error (fun _ _ => PyVal.obj 0)
    (MemoState.mk [] 0) [PyVal.obj 1, PyVal.unhashable 7] [] (by decide)

/-! ### Keyword order insensitivity of the memoization key -/

theorem sorted_perm_nodupkeys_eq :
    ∀ (l₁ l₂ : List (String × PyVal)), l₁.Perm l₂ →
      l₁.Sorted kwLE → l₂.Sorted kwLE → (l₁.map Prod.fst).Nodup → l₁ = l₂ := by
  intro l₁
  induction l₁ with
  | nil =>
      intro l₂ hperm _ _ _
      have hlen := hperm.length_eq
      cases l₂ with
      | nil => rfl
      | cons q t => simp at hlen
  | cons p t₁ ih =>
      intro l₂ hperm hs₁ hs₂ hnd
      cases l₂ with
      | nil =>
          have hlen := hperm.length_eq
          simp at hlen
      | cons q t₂ =>
          have hpq : p = q := by
            by_contra hne
            have hpmem : p ∈ q :: t₂ := hperm.mem_iff.mp (List.mem_cons_self p t₁)
            have hp2 : p ∈ t₂ := by
              rcases List.mem_cons.mp hpmem with h | h
              · exact absurd h hne
              · exact h
            have hqmem : q ∈ p :: t₁ := hperm.symm.mem_iff.mp (List.mem_cons_self q t₂)
            have hq1 : q ∈ t₁ := by
              rcases List.mem_cons.mp hqmem with h | h
              · exact absurd h.symm hne
              · exact h
            have h1 : kwLE p q := List.rel_of_sorted_cons hs₁ q hq1
            have h2 : kwLE q p := List.rel_of_sorted_cons hs₂ p hp2
            have heq : p.1 = q.1 := strLe_antisymm p.1 q.1 h1 h2
            rw [List.map_cons] at hnd
            have hnotin : p.1 ∉ t₁.map Prod.fst := (List.nodup_cons.mp hnd).1
            exact hnotin (List.mem_map.mpr ⟨q, hq1, heq.symm⟩)
          subst hpq
          rw [List.map_cons] at hnd
          have ht : t₁ = t₂ :=
            ih t₂ hperm.cons_inv hs₁.of_cons hs₂.of_cons (List.nodup_cons.mp hnd).2
          rw [ht]

theorem sortKW_eq_of_perm (kw₁ kw₂ : List (String × PyVal))
    (hperm : kw₁.Perm kw₂) (hnd : (kw₁.map Prod.fst).Nodup) :
    sortKW kw₁ = sortKW kw₂ := by
  apply sorted_perm_nodupkeys_eq
  · exact (List.perm_insertionSort kwLE kw₁).trans
      (hperm.trans (List.perm_insertionSort kwLE kw₂).symm)
  · exact List.sorted_insertionSort kwLE kw₁
  · exact List.sorted_insertionSort kwLE kw₂
  · have hp : ((sortKW kw₁).map Prod.fst).Perm (kw₁.map Prod.fst) :=
      (List.perm_insertionSort kwLE kw₁).map Prod.fst
    exact hp.nodup_iff.mpr hnd

/-- Claim C10: the memoization key ignores the order in which keyword
arguments are given (any permutation of a duplicate-free keyword list yields
the same key, so such calls share one cache entry), while positional and
keyword passing are distinguished: `f(1)` and `f(x=1)` produce different keys
and are cached independently, each invoking the underlying function once. -/
theorem C10_key_insensitive_to_kw_order :
    (∀ (args : List PyVal) (kw₁ kw₂ : List (String × PyVal)),
        kw₁.Perm kw₂ → (kw₁.map Prod.fst).Nodup →
        mkKey args kw₁ = mkKey args kw₂) ∧
    (∀ (v : PyVal) (name : String), mkKey [v] [] ≠ mkKey [] [(name, v)]) ∧
    ((runCalls (fun _ _ => PyVal.obj 0) ⟨[], 0⟩
        [⟨[PyVal.obj 1], []⟩, ⟨[], [("x", PyVal.obj 1)]⟩,
         ⟨[PyVal.obj 1], []⟩, ⟨[], [("x", PyVal.obj 1)]⟩]).calls = 2 ∧
     (runCalls (fun _ _ => PyVal.obj 0) ⟨[], 0⟩
        [⟨[PyVal.obj 1], []⟩, ⟨[], [("x", PyVal.obj 1)]⟩,
         ⟨[PyVal.obj 1], []⟩, ⟨[], [("x", PyVal.obj 1)]⟩]).cache.length = 2) ∧
    ((runCalls (fun _ _ => PyVal.obj 0) ⟨[], 0⟩
        [⟨[], [("a", PyVal.obj 1), ("b", PyVal.obj 2)]⟩,
         ⟨[], [("b", PyVal.obj 2), ("a", PyVal.obj 1)]⟩]).calls = 1 ∧
     (runCalls (fun _ _ => PyVal.obj 0) ⟨[], 0⟩
        [⟨[], [("a", PyVal.obj 1), ("b", PyVal.obj 2)]⟩,
         ⟨[], [("b", PyVal.obj 2), ("a", PyVal.obj 1)]⟩]).cache.length = 1) := by
  refine ⟨?_, ?_, by decide, by decide⟩
  · intro args kw₁ kw₂ hperm hnd
    unfold mkKey
    rw [sortKW_eq_of_perm kw₁ kw₂ hperm hnd]
  · intro v name h
    have hfst := congrArg Prod.fst h
    simp [mkKey] at hfst
